import Mathlib

/-!
Verification development for the bytecode/source correlation engine of the
huff-neo web editor.

The TypeScript sources are shallowly embedded below.  Bytecode strings are
modelled as `List Char` (JavaScript strings of hex digits); `String.prototype.slice`
with non-negative arguments is modelled by `jsSlice`; optional values and
optional record fields become `Option`.  Each definition is translated from
the function in the repository named in its doc comment.
-/

/-- JavaScript `s.slice(start, stop)` for non-negative `start`, `stop`:
the characters from index `start` (inclusive) to `stop` (exclusive), clamped
to the string. -/
def jsSlice (s : List Char) (start stop : Nat) : List Char :=
  (s.drop start).take (stop - start)

/-- Value of one hexadecimal digit character, `none` when the character is not
a hex digit (mirrors what `parseInt(·, 16)` accepts per digit). -/
def hexDigitVal (c : Char) : Option Nat :=
  let n := c.toNat
  if 48 ≤ n ∧ n ≤ 57 then some (n - 48)
  else if 97 ≤ n ∧ n ≤ 102 then some (n - 97 + 10)
  else if 65 ≤ n ∧ n ≤ 70 then some (n - 65 + 10)
  else none

/-- Greedy accumulation of further hex digits, stopping at the first non-digit,
as JavaScript `parseInt` does after the first digit. -/
def parseHexRest (acc : Nat) : List Char → Nat
  | [] => acc
  | c :: rest =>
    match hexDigitVal c with
    | some d => parseHexRest (16 * acc + d) rest
    | none => acc

/-- JavaScript `parseInt(s, 16)` on the strings in scope here: `none` models
`NaN` (empty string or leading non-digit); otherwise the value of the maximal
hex-digit prefix. -/
def parseIntHex : List Char → Option Nat
  | [] => none
  | c :: rest =>
    match hexDigitVal c with
    | some d => some (parseHexRest d rest)
    | none => none

/-- Source map entry as emitted by the `huff-neo-js` WASM compiler and consumed
by `HuffCompiler.compile` (fields `pc`, `bytecode_length`, `source_start`,
`source_length` are the ones the code reads). -/
structure SourceMapEntry where
  pc : Nat
  bytecode_length : Nat
  source_start : Nat
  source_length : Nat
deriving DecidableEq

/-- `InternalSourceMapEntry` from `src/compiler/huffCompiler.ts`: coordinates
already converted to hex-character units. -/
structure InternalSourceMapEntry where
  byte_offset : Nat
  length : Nat
  source_start : Nat
  source_end : Nat
  description : Option (List Char) := none
deriving DecidableEq

/-- `BytecodeSegment` from `src/components/BytecodeViewer.tsx`; the optional
source fields are `none` exactly on unmapped (gap) segments. -/
structure BytecodeSegment where
  offset : Nat
  bytes : List Char
  sourceStart : Option Nat := none
  sourceEnd : Option Nat := none
  description : Option (List Char) := none
deriving DecidableEq

/-- The line `bytecode.startsWith('0x') ? bytecode.slice(2) : bytecode` of the
`segments` memo in `BytecodeViewer.tsx` (and of `formatBytecode` /
`analyzeBytecode` in `huffCompiler.ts`). -/
def cleanBytecode : List Char → List Char
  | '0' :: 'x' :: rest => rest
  | b => b

/-- Insertion step of a stable sort by `byte_offset`, modelling
`[...sourceMap].sort((a, b) => a.byte_offset - b.byte_offset)` (JavaScript
`Array.prototype.sort` is stable). -/
def insertByOffset (e : InternalSourceMapEntry) :
    List InternalSourceMapEntry → List InternalSourceMapEntry
  | [] => [e]
  | f :: rest =>
    if e.byte_offset ≤ f.byte_offset then e :: f :: rest
    else f :: insertByOffset e rest

/-- Stable sort of the source map by `byte_offset`. -/
def sortByOffset : List InternalSourceMapEntry → List InternalSourceMapEntry
  | [] => []
  | e :: rest => insertByOffset e (sortByOffset rest)

/-- The mapped segment pushed for one source-map entry in the `segments` memo
of `BytecodeViewer.tsx`. -/
def mappedSegment (clean : List Char) (e : InternalSourceMapEntry) : BytecodeSegment :=
  { offset := e.byte_offset
    bytes := jsSlice clean e.byte_offset (e.byte_offset + e.length)
    sourceStart := some e.source_start
    sourceEnd := some e.source_end
    description := e.description }

/-- The `for (const entry of sortedMap)` walk of the `segments` memo in
`BytecodeViewer.tsx`, including the trailing-gap push after the loop.
`lastOffset` is the walk cursor. -/
def segWalk (clean : List Char) (lastOffset : Nat) :
    List InternalSourceMapEntry → List BytecodeSegment
  | [] =>
    if lastOffset < clean.length then
      [{ offset := lastOffset, bytes := clean.drop lastOffset }]
    else []
  | e :: rest =>
    (if lastOffset < e.byte_offset then
      [{ offset := lastOffset, bytes := jsSlice clean lastOffset e.byte_offset }]
    else []) ++
    mappedSegment clean e :: segWalk clean (e.byte_offset + e.length) rest

/-- Body of the `segments` memo of `BytecodeViewer.tsx` after the bytecode has
been cleaned: empty or absent map yields one whole-string segment, otherwise
the gap-filling walk over the sorted map. -/
def segmentsOf (clean : List Char) :
    Option (List InternalSourceMapEntry) → List BytecodeSegment
  | none => [{ offset := 0, bytes := clean }]
  | some m =>
    if m.length = 0 then [{ offset := 0, bytes := clean }]
    else segWalk clean 0 (sortByOffset m)

/-- The `segments` memo of `BytecodeViewer.tsx`: strip an optional `0x` prefix,
then segment the prefix-free hex string against the (optional) source map. -/
def segments (bytecode : List Char) (sourceMap : Option (List InternalSourceMapEntry)) :
    List BytecodeSegment :=
  segmentsOf (cleanBytecode bytecode) sourceMap

/-- Concatenation of the `bytes` fields of a segment list, in order. -/
def segBytesConcat (l : List BytecodeSegment) : List Char :=
  l.foldr (fun s acc => s.bytes ++ acc) []

/-- Decidable statement that a segment list starting from cursor `c` is
contiguous: each segment starts exactly where the previous one ended.  For a
list starting at cursor `0` this packages the C1 invariants "sorted ascending
by offset, non-overlapping, contiguous". -/
def segsContiguousB : Nat → List BytecodeSegment → Bool
  | _, [] => true
  | c, s :: rest => decide (s.offset = c) && segsContiguousB (c + s.bytes.length) rest

/-- Decidable statement that a sorted entry list, walked from cursor `c`, is
pairwise non-overlapping and stays inside a bytecode of length `n`. -/
def entriesChainB (n : Nat) : Nat → List InternalSourceMapEntry → Bool
  | _, [] => true
  | c, e :: rest =>
    decide (c ≤ e.byte_offset) && decide (e.byte_offset + e.length ≤ n) &&
      entriesChainB n (e.byte_offset + e.length) rest

/-- A rendered opcode span of `parseOpcodes` in `BytecodeViewer.tsx`.  The
three constructors are the three `className`s emitted there: `opcode-push`
(a push instruction byte), `opcode-push-data` (immediate data) and `opcode`
(any other instruction byte).  `push` and `op` spans are both instruction
spans in the spec's terminology; `pushData` is an `ImmediateData` span. -/
inductive OpcodeSpan where
  | push (text : List Char)
  | pushData (text : List Char)
  | op (text : List Char)
deriving DecidableEq

/-- Whether a span is an instruction span (the spec's `Instruction{...}`)
rather than an `ImmediateData` span. -/
def spanIsInstruction : OpcodeSpan → Bool
  | .push _ => true
  | .pushData _ => false
  | .op _ => true

/-- The `while (i < bytes.length)` loop of `parseOpcodes` in
`BytecodeViewer.tsx`.  `i` is the loop index into `bytes`; the extra `fuel`
argument makes the recursion structural and never runs out when it starts at
`bytes.length` (the loop advances `i` by at least 2 per iteration, see
`parseOpcodesGo_fuel`).  A `parseInt` result of `NaN` (here `none`) fails the
push-range test, so such a byte takes the regular-opcode branch, as in the
code. -/
def parseOpcodesGo (bytes : List Char) : Nat → Nat → List OpcodeSpan
  | 0, _ => []
  | fuel + 1, i =>
    if i < bytes.length then
      let opcode := jsSlice bytes i (i + 2)
      match parseIntHex opcode with
      | some v =>
        if 96 ≤ v ∧ v ≤ 127 then
          let pushSize := v - 96 + 1
          let dataLength := pushSize * 2
          if i + 2 < bytes.length then
            let data := jsSlice bytes (i + 2) (min (i + 2 + dataLength) bytes.length)
            OpcodeSpan.push opcode :: OpcodeSpan.pushData data ::
              parseOpcodesGo bytes fuel (i + 2 + data.length)
          else
            OpcodeSpan.push opcode :: parseOpcodesGo bytes fuel (i + 2)
        else
          OpcodeSpan.op opcode :: parseOpcodesGo bytes fuel (i + 2)
      | none => OpcodeSpan.op opcode :: parseOpcodesGo bytes fuel (i + 2)
    else []

/-- `parseOpcodes` from `BytecodeViewer.tsx`: tokenize one segment's hex byte
span into instruction and immediate-data spans. -/
def parseOpcodes (bytes : List Char) : List OpcodeSpan :=
  parseOpcodesGo bytes bytes.length 0

/-- The per-entry conversion inside `HuffCompiler.compile`
(`src/compiler/huffCompiler.ts`): byte units to hex-character units, and
`source_start + source_length` to an exclusive `source_end`.  The converted
object carries no `description` field. -/
def toInternalEntry (e : SourceMapEntry) : InternalSourceMapEntry :=
  { byte_offset := e.pc * 2
    length := e.bytecode_length * 2
    source_start := e.source_start
    source_end := e.source_start + e.source_length
    description := none }

/-- The `constructor_map?.map(...)` / `runtime_map?.map(...)` conversion in
`HuffCompiler.compile`. -/
def toInternalMap (m : List SourceMapEntry) : List InternalSourceMapEntry :=
  m.map toInternalEntry

/-- The final `return result.length > 0 ? result : undefined` of
`reconstructBytecodeMap` in `App.tsx`. -/
def nonemptyOpt (l : List InternalSourceMapEntry) : Option (List InternalSourceMapEntry) :=
  if l.length > 0 then some l else none

/-- Offset shift applied to one runtime entry by `reconstructBytecodeMap`. -/
def shiftEntry (constructorLength : Nat) (e : InternalSourceMapEntry) :
    InternalSourceMapEntry :=
  { e with byte_offset := e.byte_offset + constructorLength }

/-- `reconstructBytecodeMap` from `App.tsx`.  JavaScript truthiness of the
optional `constructorLength` number is `some L` with `L ≠ 0`; both `some 0`
and `none` are falsy and take the pass-through branch. -/
def reconstructBytecodeMap (constructorMap runtimeMap : Option (List InternalSourceMapEntry))
    (constructorLength : Option Nat) : Option (List InternalSourceMapEntry) :=
  match constructorMap, runtimeMap with
  | none, none => none
  | _, _ =>
    let r1 := match constructorMap with
      | some cm => cm
      | none => []
    let r2 := match runtimeMap with
      | some rm =>
        match constructorLength with
        | some l => if l ≠ 0 then rm.map (shiftEntry l) else rm
        | none => rm
      | none => []
    nonemptyOpt (r1 ++ r2)

/-- The `.huff` extension string used by `possibleKeys`. -/
def huffExt : List Char := ['.', 'h', 'u', 'f', 'f']

/-- JavaScript `s.replace(pat, '')` with a string pattern: remove the first
occurrence of `pat`, leave the string unchanged when `pat` does not occur. -/
def replaceFirst (s pat : List Char) : List Char :=
  match s with
  | [] => []
  | c :: rest =>
    if pat.isPrefixOf (c :: rest) then (c :: rest).drop pat.length
    else c :: replaceFirst rest pat

/-- The `possibleKeys` array of `HuffCompiler.compile`:
`[fileName, './' + fileName, fileName.replace('.huff', '')]`. -/
def possibleKeys (fileName : List Char) : List (List Char) :=
  [fileName, '.' :: '/' :: fileName, replaceFirst fileName huffExt]

/-- `Map.prototype.get` on the contracts map, modelled as first match in the
insertion-ordered association list. -/
def mapGet (m : List (List Char × α)) (k : List Char) : Option α :=
  (m.find? (fun p => p.1 == k)).map (fun p => p.2)

/-- The `for (const key of possibleKeys)` loop of `HuffCompiler.compile`:
return the first contract found under one of the candidate keys. -/
def findByKeys (keys : List (List Char)) (m : List (List Char × α)) : Option α :=
  match keys with
  | [] => none
  | k :: rest =>
    match mapGet m k with
    | some c => some c
    | none => findByKeys rest m

/-- Contract selection in `HuffCompiler.compile`: the candidate-key loop,
then — `if (contractsMap.size > 0)` — the fallback to the first entry of the
contracts map; `none` models falling through to the "no contract" failure
return. -/
def selectContract (fileName : List Char) (m : List (List Char × α)) : Option α :=
  match findByKeys (possibleKeys fileName) m with
  | some c => some c
  | none =>
    if m.length > 0 then (m.head?).map (fun p => p.2)
    else none

/-- The visible compile result of `App.tsx` (`CompileResult` in
`huffCompiler.ts`, reduced to the fields the scheduler claims touch). -/
structure CompileResultM where
  success : Bool
  bytecode : Option (List Char)
  errors : Option (List (List Char))
deriving DecidableEq

/-- One completed compilation: the sequence number at which its request was
issued, and its result.  `App.handleCompileContent` carries no such number;
it is recorded here only so the statement can speak about issue order. -/
structure Completion where
  seq : Nat
  result : CompileResultM
deriving DecidableEq

/-- Result application in `App.handleCompileContent` (`App.tsx`): every
completed request runs `setCompileResult(result)` unconditionally — the
issue sequence number is never consulted. -/
def applyCompletion (state : Option CompileResultM) (c : Completion) :
    Option CompileResultM :=
  some c.result

/-- Visible compile state after a list of completions has arrived, in arrival
order, starting from `init`. -/
def applyCompletions (init : Option CompileResultM) (cs : List Completion) :
    Option CompileResultM :=
  cs.foldl applyCompletion init

/-- A Monaco decoration handle, reduced to the highlighted character range
(`App.handleBytecodeHover` converts `sourceStart`/`sourceEnd` character
offsets into the decoration's range via `getPositionAt`). -/
structure EditorDecoration where
  startOffset : Nat
  endOffset : Nat
deriving DecidableEq

/-- `App.handleBytecodeHover` (`App.tsx`) as a transition on the decoration
list owned by `decorationsRef`, returning the new decoration list and whether
the editor was scrolled.  The function first clears all current decorations;
when both offsets are non-null it then adds exactly one new decoration and
scrolls — unless `getModel()` returned null (`modelPresent = false`), in
which case it returns after the clear. -/
def handleBytecodeHover (modelPresent : Bool) (decorations : List EditorDecoration)
    (sourceStart sourceEnd : Option Nat) : List EditorDecoration × Bool :=
  match sourceStart, sourceEnd with
  | some s, some e =>
    if modelPresent then ([{ startOffset := s, endOffset := e }], true)
    else ([], false)
  | _, _ => ([], false)

/-- `handleSegmentHover` in `BytecodeViewer.tsx`: the arguments it passes to
`onHover` — the segment's source range when hovering a mapped segment, both
null when hovering an unmapped segment or leaving (`null`). -/
def handleSegmentHover (segment : Option BytecodeSegment) : Option Nat × Option Nat :=
  match segment with
  | some s =>
    match s.sourceStart, s.sourceEnd with
    | some a, some b => (some a, some b)
    | _, _ => (none, none)
  | none => (none, none)

/-- One hover event end to end: `BytecodeViewer.handleSegmentHover` feeding
`App.handleBytecodeHover`. -/
def hoverStep (modelPresent : Bool) (decorations : List EditorDecoration)
    (segment : Option BytecodeSegment) : List EditorDecoration × Bool :=
  let args := handleSegmentHover segment
  handleBytecodeHover modelPresent decorations args.1 args.2

/-- Decoration state after a sequence of hover events. -/
def hoverRun (modelPresent : Bool) (decorations : List EditorDecoration)
    (events : List (Option BytecodeSegment)) : List EditorDecoration :=
  events.foldl (fun d e => (hoverStep modelPresent d e).1) decorations

/-- Helper: one hover event leaves at most one decoration active. -/
theorem hoverStep_length_le (mp : Bool) (d : List EditorDecoration)
    (e : Option BytecodeSegment) : (hoverStep mp d e).1.length ≤ 1 := by
  unfold hoverStep handleBytecodeHover
  rcases handleSegmentHover e with ⟨a, b⟩
  cases a <;> cases b <;> simp <;> split <;> simp

/-- Helper: running any event sequence from a state with at most one active
decoration keeps at most one active decoration. -/
theorem hoverRun_length_le (events : List (Option BytecodeSegment)) (mp : Bool)
    (d : List EditorDecoration) (hd : d.length ≤ 1) :
    (hoverRun mp d events).length ≤ 1 := by
  induction events generalizing d with
  | nil => exact hd
  | cons e es ih => exact ih _ (hoverStep_length_le mp d e)

/-- Claim C2 (code bug evidence): requests issued with sequence numbers 1 and
2 whose completions arrive in the order "2 first, then 1".  The code applies
every completion unconditionally, so the finally visible result is request
1's, although the claim (and the spec's ordering requirement) demand request
2's result; the two results are distinct. -/
theorem C2_race :
    applyCompletions none
        [{ seq := 2, result := { success := true, bytecode := some ("02".toList), errors := none } },
         { seq := 1, result := { success := true, bytecode := some ("01".toList), errors := none } }] =
      some { success := true, bytecode := some ("01".toList), errors := none }
    ∧ ({ success := true, bytecode := some ("01".toList), errors := none } : CompileResultM) ≠
      { success := true, bytecode := some ("02".toList), errors := none } := by
  decide

/-- Claim C5: the Region Stitcher.  With both maps present and a nonzero
initialization length `L`, constructor entries pass through unchanged and
every runtime entry's offset is shifted by exactly `L`; with `L = 0` or `L`
absent, runtime entries pass through with unchanged offsets. -/
theorem C5_stitch (cm rm : List InternalSourceMapEntry) (L : Nat) (hL : L ≠ 0) :
    reconstructBytecodeMap (some cm) (some rm) (some L) =
      nonemptyOpt (cm ++ rm.map (shiftEntry L))
    ∧ reconstructBytecodeMap (some cm) (some rm) (some 0) = nonemptyOpt (cm ++ rm)
    ∧ reconstructBytecodeMap (some cm) (some rm) none = nonemptyOpt (cm ++ rm)
    ∧ ∀ e : InternalSourceMapEntry,
        (shiftEntry L e).byte_offset = e.byte_offset + L
        ∧ (shiftEntry L e).length = e.length
        ∧ (shiftEntry L e).source_start = e.source_start
        ∧ (shiftEntry L e).source_end = e.source_end := by
  refine ⟨?_, ?_, ?_, fun e => ⟨rfl, rfl, rfl, rfl⟩⟩ <;>
    simp [reconstructBytecodeMap, hL]

/-- Witness for C5 at the spec's example: initialization length 20 and one
execution entry at character offset 4 stitches to character offset 24. -/
theorem C5_stitch_witness :
    reconstructBytecodeMap (some [])
        (some [{ byte_offset := 4, length := 2, source_start := 0, source_end := 1 }])
        (some 20) =
      some [{ byte_offset := 24, length := 2, source_start := 0, source_end := 1 }] := by
  have h := (C5_stitch []
    [{ byte_offset := 4, length := 2, source_start := 0, source_end := 1 }] 20 (by decide)).1
  rw [h]
  decide

/-- Claim C6: the Coordinate Normalizer.  Each raw compiler entry with
program counter `p`, byte length `l`, source start `s` and source length `n`
yields exactly one internal entry with `byte_offset = 2p`, `length = 2l`,
`source_end = s + n`, an unchanged `source_start`, and nothing else; the map
conversion is one-to-one. -/
theorem C6_normalizer (p l s n : Nat) (m : List SourceMapEntry) :
    toInternalEntry { pc := p, bytecode_length := l, source_start := s, source_length := n } =
      { byte_offset := 2 * p, length := 2 * l, source_start := s, source_end := s + n,
        description := none }
    ∧ (toInternalMap m).length = m.length
    ∧ toInternalMap m = m.map toInternalEntry := by
  refine ⟨?_, by simp [toInternalMap], rfl⟩
  simp [toInternalEntry, Nat.mul_comm]

/-- Claim C7 counterexample: with two contracts, neither reachable under any
of the three candidate keys for `main.huff`, the code still falls back and
returns the first contract — the claim allows the fallback only when exactly
one contract exists. -/
theorem C7_cex :
    (possibleKeys ("main.huff".toList)).all
        (fun k => (mapGet [(("a".toList), 0), (("b".toList), 1)] k).isNone) = true
    ∧ ([(("a".toList), 0), (("b".toList), 1)] : List (List Char × Nat)).length = 2
    ∧ selectContract ("main.huff".toList) [(("a".toList), 0), (("b".toList), 1)] = some 0 := by
  decide

/-- Claim C7 as amended: lookup tries, in order, the bare filename, the
`./`-prefixed filename, and the filename with the first `.huff` occurrence
removed; if none of these keys matches, it falls back to the first available
contract whenever at least one contract exists (returning none only when the
map is empty). -/
theorem C7_lookup (f : List Char) (m : List (List Char × Nat)) (c : Nat) :
    (mapGet m f = some c → selectContract f m = some c)
    ∧ (mapGet m f = none → mapGet m ('.' :: '/' :: f) = some c →
        selectContract f m = some c)
    ∧ (mapGet m f = none → mapGet m ('.' :: '/' :: f) = none →
        mapGet m (replaceFirst f huffExt) = some c → selectContract f m = some c)
    ∧ ((∀ k ∈ possibleKeys f, mapGet m k = none) →
        selectContract f m = m.head?.map (fun p => p.2)) := by
  refine ⟨?_, ?_, ?_, ?_⟩
  · intro h
    simp [selectContract, findByKeys, possibleKeys, h]
  · intro h1 h2
    simp [selectContract, findByKeys, possibleKeys, h1, h2]
  · intro h1 h2 h3
    simp [selectContract, findByKeys, possibleKeys, h1, h2, h3]
  · intro hall
    have h1 := hall f (by simp [possibleKeys])
    have h2 := hall ('.' :: '/' :: f) (by simp [possibleKeys])
    have h3 := hall (replaceFirst f huffExt) (by simp [possibleKeys])
    cases m with
    | nil => simp [selectContract, findByKeys, possibleKeys, h1, h2, h3]
    | cons p rest => simp [selectContract, findByKeys, possibleKeys, h1, h2, h3]

/-- Witness for C7: a single contract stored under an unrelated key is
returned by the fallback. -/
theorem C7_lookup_witness :
    selectContract ("a.huff".toList) [(("z".toList), 5)] = some 5 := by
  have h := (C7_lookup ("a.huff".toList) [(("z".toList), 5)] 0).2.2.2 (by decide)
  rw [h]
  rfl

/-- Claim C8: with an absent or empty source map the Segmenter yields exactly
one unmapped segment at offset 0 holding the whole (prefix-free) bytecode;
for `6001600201` with an empty map, tokenizing that single segment yields the
5 spans instruction, 1-byte immediate data, instruction, 1-byte immediate
data, instruction. -/
theorem C8_empty_map :
    (∀ B : List Char, segments B none = [{ offset := 0, bytes := cleanBytecode B }])
    ∧ (∀ B : List Char, segments B (some []) = [{ offset := 0, bytes := cleanBytecode B }])
    ∧ segments ("6001600201".toList) (some []) =
        [{ offset := 0, bytes := "6001600201".toList }]
    ∧ parseOpcodes ("6001600201".toList) =
        [OpcodeSpan.push ("60".toList), OpcodeSpan.pushData ("01".toList),
         OpcodeSpan.push ("60".toList), OpcodeSpan.pushData ("02".toList),
         OpcodeSpan.op ("01".toList)]
    ∧ (parseOpcodes ("6001600201".toList)).map spanIsInstruction =
        [true, false, true, false, true] := by
  exact ⟨fun B => rfl, fun B => rfl, by decide, by decide, by decide⟩

/-- Claim C9: the hover controller.  Starting from no decoration, any hover
event sequence leaves at most one decoration active; hovering a mapped
segment installs exactly the decoration over its source range and scrolls
(when the editor model is present); hovering an unmapped segment or `null`
clears all decorations and does not scroll. -/
theorem C9_hover (mp : Bool) (d : List EditorDecoration)
    (events : List (Option BytecodeSegment)) (seg : BytecodeSegment) (a b : Nat)
    (hs : seg.sourceStart = some a) (he : seg.sourceEnd = some b) :
    (hoverRun mp [] events).length ≤ 1
    ∧ (mp = true → hoverStep mp d (some seg) =
        ([{ startOffset := a, endOffset := b }], true))
    ∧ (∀ u : BytecodeSegment, u.sourceStart = none → hoverStep mp d (some u) = ([], false))
    ∧ hoverStep mp d none = ([], false) := by
  refine ⟨hoverRun_length_le events mp [] (by simp), ?_, ?_, rfl⟩
  · intro hmp
    subst hmp
    simp [hoverStep, handleSegmentHover, handleBytecodeHover, hs, he]
  · intro u hu
    cases hv : u.sourceEnd <;>
      simp [hoverStep, handleSegmentHover, handleBytecodeHover, hu, hv]

/-- Witness for C9: hovering a mapped segment with source range 3–7, from a
state holding a stale decoration, installs exactly that range and scrolls. -/
theorem C9_hover_witness :
    hoverStep true [{ startOffset := 9, endOffset := 9 }]
        (some { offset := 0, bytes := [], sourceStart := some 3, sourceEnd := some 7 }) =
      ([{ startOffset := 3, endOffset := 7 }], true) :=
  (C9_hover true [{ startOffset := 9, endOffset := 9 }] []
    { offset := 0, bytes := [], sourceStart := some 3, sourceEnd := some 7 }
    3 7 rfl rfl).2.1 rfl

/-- Claim C10: the Segmenter first removes a leading `0x` prefix when present
and computes everything relative to the prefix-free string; an input without
the prefix is used unchanged. -/
theorem C10_prefix_strip :
    (∀ (B : List Char) (m : Option (List InternalSourceMapEntry)),
        segments B m = segmentsOf (cleanBytecode B) m)
    ∧ (∀ rest : List Char, cleanBytecode ('0' :: 'x' :: rest) = rest)
    ∧ (∀ B : List Char, B.take 2 ≠ ['0', 'x'] → cleanBytecode B = B) := by
  refine ⟨fun B m => rfl, fun rest => rfl, ?_⟩
  intro B h
  unfold cleanBytecode
  split
  · exact absurd rfl h
  · rfl

/-- Witness for C10 at a prefix-free input. -/
theorem C10_prefix_strip_witness :
    cleanBytecode ("ab".toList) = ("ab".toList) :=
  C10_prefix_strip.2.2 ("ab".toList) (by decide)

/-- Helper: taking up to the list's length is the same as taking. -/
theorem take_min_length (l : List Char) (n : Nat) : l.take (min n l.length) = l.take n := by
  rcases Nat.le_total n l.length with h | h
  · rw [Nat.min_eq_left h]
  · rw [Nat.min_eq_right h, List.take_length, List.take_of_length_le h]

/-- Helper: dropping up to the list's length is the same as dropping. -/
theorem drop_min_length (l : List Char) (n : Nat) : l.drop (min n l.length) = l.drop n := by
  rcases Nat.le_total n l.length with h | h
  · rw [Nat.min_eq_left h]
  · rw [Nat.min_eq_right h, List.drop_length, List.drop_of_length_le h]

/-- One-step unfolding of the tokenizer loop at positive fuel. -/
theorem parseOpcodesGo_succ (bytes : List Char) (fuel i : Nat) :
    parseOpcodesGo bytes (fuel + 1) i =
      if i < bytes.length then
        match parseIntHex (jsSlice bytes i (i + 2)) with
        | some v =>
          if 96 ≤ v ∧ v ≤ 127 then
            if i + 2 < bytes.length then
              OpcodeSpan.push (jsSlice bytes i (i + 2)) ::
              OpcodeSpan.pushData
                (jsSlice bytes (i + 2) (min (i + 2 + (v - 96 + 1) * 2) bytes.length)) ::
              parseOpcodesGo bytes fuel
                (i + 2 +
                  (jsSlice bytes (i + 2) (min (i + 2 + (v - 96 + 1) * 2) bytes.length)).length)
            else
              OpcodeSpan.push (jsSlice bytes i (i + 2)) :: parseOpcodesGo bytes fuel (i + 2)
          else
            OpcodeSpan.op (jsSlice bytes i (i + 2)) :: parseOpcodesGo bytes fuel (i + 2)
        | none => OpcodeSpan.op (jsSlice bytes i (i + 2)) :: parseOpcodesGo bytes fuel (i + 2)
      else [] := rfl

/-- Past the end of the byte span the loop yields nothing, at any fuel. -/
theorem parseOpcodesGo_of_ge (bytes : List Char) (i : Nat) (h : bytes.length ≤ i) :
    ∀ fuel, parseOpcodesGo bytes fuel i = [] := by
  intro fuel
  cases fuel with
  | zero => rfl
  | succ fuel => rw [parseOpcodesGo_succ, if_neg (by omega)]

/-- The loop result does not depend on the fuel once the fuel covers the
remaining characters (the loop advances `i` by at least 2 per iteration). -/
theorem parseOpcodesGo_fuel (bytes : List Char) :
    ∀ fuel fuel' i, bytes.length - i ≤ fuel → bytes.length - i ≤ fuel' →
      parseOpcodesGo bytes fuel i = parseOpcodesGo bytes fuel' i := by
  intro fuel
  induction fuel with
  | zero =>
    intro fuel' i h h'
    rw [parseOpcodesGo_of_ge bytes i (by omega) fuel']
    rfl
  | succ fuel ih =>
    intro fuel' i h h'
    by_cases hi : i < bytes.length
    · cases fuel' with
      | zero => omega
      | succ fuel' =>
        rw [parseOpcodesGo_succ, parseOpcodesGo_succ, if_pos hi, if_pos hi]
        cases hpv : parseIntHex (jsSlice bytes i (i + 2)) with
        | none => simp only [hpv]; rw [ih fuel' (i + 2) (by omega) (by omega)]
        | some v =>
          simp only [hpv]
          by_cases hp : 96 ≤ v ∧ v ≤ 127
          · rw [if_pos hp, if_pos hp]
            by_cases h2 : i + 2 < bytes.length
            · rw [if_pos h2, if_pos h2,
                ih fuel' (i + 2 +
                  (jsSlice bytes (i + 2)
                    (min (i + 2 + (v - 96 + 1) * 2) bytes.length)).length)
                  (by omega) (by omega)]
            · rw [if_neg h2, if_neg h2, ih fuel' (i + 2) (by omega) (by omega)]
          · rw [if_neg hp, if_neg hp, ih fuel' (i + 2) (by omega) (by omega)]
    · rw [parseOpcodesGo_of_ge bytes i (by omega), parseOpcodesGo_of_ge bytes i (by omega)]

/-- The loop from index `i` tokenizes exactly the suffix of the byte span from
`i`: every slice the loop body takes is relative to `i`. -/
theorem parseOpcodesGo_shift :
    ∀ (fuel : Nat) (bytes : List Char) (i : Nat),
      parseOpcodesGo bytes fuel i = parseOpcodesGo (bytes.drop i) fuel 0 := by
  intro fuel
  induction fuel with
  | zero => intro bytes i; rfl
  | succ fuel ih =>
    intro bytes i
    by_cases hi : i < bytes.length
    · have hi0 : 0 < (bytes.drop i).length := by simp; omega
      rw [parseOpcodesGo_succ, parseOpcodesGo_succ, if_pos hi, if_pos hi0]
      simp only [Nat.zero_add]
      have hop : jsSlice (bytes.drop i) 0 2 = jsSlice bytes i (i + 2) := by
        simp [jsSlice, Nat.add_sub_cancel_left]
      rw [hop]
      have htail : parseOpcodesGo bytes fuel (i + 2) = parseOpcodesGo (bytes.drop i) fuel 2 := by
        rw [ih bytes (i + 2), ih (bytes.drop i) 2, List.drop_drop]
      cases hpv : parseIntHex (jsSlice bytes i (i + 2)) with
      | none => simp only [hpv]; rw [htail]
      | some v =>
        simp only [hpv]
        by_cases hp : 96 ≤ v ∧ v ≤ 127
        · rw [if_pos hp, if_pos hp]
          have h2iff : 2 < (bytes.drop i).length ↔ i + 2 < bytes.length := by simp; omega
          by_cases h2 : i + 2 < bytes.length
          · rw [if_pos h2, if_pos (h2iff.mpr h2)]
            have hdata :
                jsSlice (bytes.drop i) 2 (min (2 + (v - 96 + 1) * 2) (bytes.drop i).length) =
                  jsSlice bytes (i + 2) (min (i + 2 + (v - 96 + 1) * 2) bytes.length) := by
              unfold jsSlice
              rw [List.drop_drop, List.length_drop]
              congr 1
              omega
            rw [hdata,
              ih bytes (i + 2 +
                (jsSlice bytes (i + 2)
                  (min (i + 2 + (v - 96 + 1) * 2) bytes.length)).length),
              ih (bytes.drop i) (2 +
                (jsSlice bytes (i + 2)
                  (min (i + 2 + (v - 96 + 1) * 2) bytes.length)).length),
              List.drop_drop]
            simp only [Nat.add_assoc]
          · rw [if_neg h2, if_neg (by rw [h2iff]; exact h2), htail]
        · rw [if_neg hp, if_neg hp, htail]
    · rw [parseOpcodesGo_of_ge bytes i (by omega),
        parseOpcodesGo_of_ge (bytes.drop i) 0 (by simp; omega)]

/-- The loop from index `i`, given enough fuel, is the tokenizer of the
suffix from `i`. -/
theorem parseOpcodesGo_eq_drop (bytes : List Char) (fuel i : Nat)
    (h : bytes.length - i ≤ fuel) :
    parseOpcodesGo bytes fuel i = parseOpcodes (bytes.drop i) := by
  rw [parseOpcodesGo_shift fuel bytes i]
  exact parseOpcodesGo_fuel (bytes.drop i) fuel (bytes.drop i).length 0
    (by simp; omega) (by simp)

/-- Helper: a push byte with at least one byte after it yields the push span,
then one immediate-data span of `min(2N, remaining)` hex characters
(`N = v - 0x60 + 1` bytes), then the tokenization of what follows the data. -/
theorem parseOpcodes_push_of_ne (c1 c2 : Char) (v : Nat) (rest : List Char)
    (hv : parseIntHex [c1, c2] = some v) (hp : 96 ≤ v ∧ v ≤ 127) (hne : rest ≠ []) :
    parseOpcodes (c1 :: c2 :: rest) =
      OpcodeSpan.push [c1, c2] ::
      OpcodeSpan.pushData (rest.take ((v - 96 + 1) * 2)) ::
      parseOpcodes (rest.drop ((v - 96 + 1) * 2)) := by
  have hrl : 0 < rest.length := List.length_pos.mpr hne
  unfold parseOpcodes
  rw [show (c1 :: c2 :: rest).length = rest.length + 1 + 1 from by
      simp only [List.length_cons],
    parseOpcodesGo_succ, if_pos (by simp)]
  rw [show jsSlice (c1 :: c2 :: rest) 0 (0 + 2) = [c1, c2] from rfl]
  simp only [hv]
  rw [if_pos hp, if_pos (by simp; omega)]
  have hdata :
      jsSlice (c1 :: c2 :: rest) (0 + 2)
          (min (0 + 2 + (v - 96 + 1) * 2) (c1 :: c2 :: rest).length) =
        rest.take ((v - 96 + 1) * 2) := by
    show rest.take
        (min (0 + 2 + (v - 96 + 1) * 2) (c1 :: c2 :: rest).length - (0 + 2)) = _
    rw [show min (0 + 2 + (v - 96 + 1) * 2) (c1 :: c2 :: rest).length - (0 + 2) =
        min ((v - 96 + 1) * 2) rest.length from by simp; omega]
    exact take_min_length rest _
  rw [hdata, parseOpcodesGo_eq_drop _ _ _ (by simp; omega)]
  rw [show (0 : Nat) + 2 + (rest.take ((v - 96 + 1) * 2)).length =
      2 + (rest.take ((v - 96 + 1) * 2)).length from by omega,
    ← List.drop_drop]
  rw [show (c1 :: c2 :: rest).drop 2 = rest from rfl, List.length_take,
    drop_min_length]
  rfl

/-- Helper: a push byte that is the final byte of the span yields only its
instruction span — no immediate-data span follows. -/
theorem parseOpcodes_push_last (c1 c2 : Char) (v : Nat)
    (hv : parseIntHex [c1, c2] = some v) (hp : 96 ≤ v ∧ v ≤ 127) :
    parseOpcodes [c1, c2] = [OpcodeSpan.push [c1, c2]] := by
  unfold parseOpcodes
  rw [show ([c1, c2] : List Char).length = 1 + 1 from rfl, parseOpcodesGo_succ,
    if_pos (by simp)]
  rw [show jsSlice [c1, c2] 0 (0 + 2) = [c1, c2] from rfl]
  simp only [hv]
  rw [if_pos hp, if_neg (by simp), parseOpcodesGo_of_ge _ _ (by simp)]

/-- Helper: a byte outside the push range yields a single instruction span
followed by the tokenization of the remaining bytes. -/
theorem parseOpcodes_op_of_not_push (c1 c2 : Char) (v : Nat) (rest : List Char)
    (hv : parseIntHex [c1, c2] = some v) (hp : ¬(96 ≤ v ∧ v ≤ 127)) :
    parseOpcodes (c1 :: c2 :: rest) = OpcodeSpan.op [c1, c2] :: parseOpcodes rest := by
  unfold parseOpcodes
  rw [show (c1 :: c2 :: rest).length = rest.length + 1 + 1 from by
      simp only [List.length_cons],
    parseOpcodesGo_succ, if_pos (by simp)]
  rw [show jsSlice (c1 :: c2 :: rest) 0 (0 + 2) = [c1, c2] from rfl]
  simp only [hv]
  rw [if_neg hp, parseOpcodesGo_eq_drop _ _ _ (by simp)]
  rfl

/-- Claim C4 counterexample: the even-length hex span `60` consists of one
push byte with nothing after it.  The claim requires an `Instruction` span
followed by one `ImmediateData` span (truncated, here to zero bytes), but the
code emits no `ImmediateData` span at all — the output is the single push
instruction span, and contains no immediate-data span whatsoever. -/
theorem C4_cex :
    parseOpcodes ("60".toList) = [OpcodeSpan.push ("60".toList)]
    ∧ (parseOpcodes ("60".toList)).filter (fun s => !spanIsInstruction s) = [] := by
  decide

/-- Claim C4 as amended: over an even-length hex byte span led by the byte
`c1 c2` of value `v`, (1) a push byte (`0x60 ≤ v ≤ 0x7f`) followed by at
least one further byte yields its instruction span, then one immediate-data
span of the next `N = v - 0x60 + 1` bytes truncated to the bytes actually
present (`take`/`drop` clamp to the span), then the tokenization of the
remainder; (2) a push byte that ends the span yields only its instruction
span, with no (empty) immediate-data span; (3) a byte outside the push range
yields a single instruction span; and (4) the bytes `60 2a 01` yield
instruction `60`, immediate data `2a`, instruction `01`. -/
theorem C4_tokenizer (c1 c2 : Char) (v : Nat) (rest : List Char)
    (hv : parseIntHex [c1, c2] = some v) :
    (96 ≤ v ∧ v ≤ 127 → rest ≠ [] →
      parseOpcodes (c1 :: c2 :: rest) =
        OpcodeSpan.push [c1, c2] ::
        OpcodeSpan.pushData (rest.take ((v - 96 + 1) * 2)) ::
        parseOpcodes (rest.drop ((v - 96 + 1) * 2)))
    ∧ (96 ≤ v ∧ v ≤ 127 → parseOpcodes [c1, c2] = [OpcodeSpan.push [c1, c2]])
    ∧ (¬(96 ≤ v ∧ v ≤ 127) →
      parseOpcodes (c1 :: c2 :: rest) = OpcodeSpan.op [c1, c2] :: parseOpcodes rest)
    ∧ parseOpcodes ("602a01".toList) =
        [OpcodeSpan.push ("60".toList), OpcodeSpan.pushData ("2a".toList),
         OpcodeSpan.op ("01".toList)] :=
  ⟨fun hp hne => parseOpcodes_push_of_ne c1 c2 v rest hv hp hne,
   fun hp => parseOpcodes_push_last c1 c2 v hv hp,
   fun hp => parseOpcodes_op_of_not_push c1 c2 v rest hv hp,
   by decide⟩

/-- Witness for C4 at the spec's example `60 2a 01`: the push byte consumes
one byte of immediate data and tokenization continues after it. -/
theorem C4_tokenizer_witness :
    parseOpcodes ('6' :: '0' :: ("2a01".toList)) =
      OpcodeSpan.push ['6', '0'] ::
      OpcodeSpan.pushData (("2a01".toList).take ((96 - 96 + 1) * 2)) ::
      parseOpcodes (("2a01".toList).drop ((96 - 96 + 1) * 2)) :=
  (C4_tokenizer '6' '0' 96 ("2a01".toList) (by decide)).1 (by decide) (by decide)

/-- Helper: unfolding of `segBytesConcat` on a cons. -/
theorem segBytesConcat_cons (s : BytecodeSegment) (l : List BytecodeSegment) :
    segBytesConcat (s :: l) = s.bytes ++ segBytesConcat l := rfl

/-- Helper: unfolding of the contiguity check on a cons. -/
theorem segsContiguousB_cons (c : Nat) (s : BytecodeSegment) (l : List BytecodeSegment) :
    segsContiguousB c (s :: l) = true ↔
      s.offset = c ∧ segsContiguousB (c + s.bytes.length) l = true := by
  simp [segsContiguousB]

/-- Helper: the length of an in-bounds slice. -/
theorem jsSlice_length_of_le (l : List Char) (a b : Nat) (hab : a ≤ b)
    (hb : b ≤ l.length) : (jsSlice l a b).length = b - a := by
  simp [jsSlice]
  omega

/-- Helper: a suffix splits at any later position into a slice and the
remaining suffix. -/
theorem drop_eq_slice_append (l : List Char) (a b : Nat) (hab : a ≤ b) :
    l.drop a = jsSlice l a b ++ l.drop b := by
  unfold jsSlice
  conv_lhs => rw [← List.take_append_drop (b - a) (l.drop a)]
  rw [List.drop_drop, show a + (b - a) = b from by omega]

/-- Helper: when the sorted entries form an in-bounds, non-overlapping chain
from cursor `c`, the walk from `c` is contiguous and its bytes concatenate to
the suffix of the bytecode from `c`. -/
theorem segWalk_spec (clean : List Char) :
    ∀ (entries : List InternalSourceMapEntry) (c : Nat),
      entriesChainB clean.length c entries = true →
      segsContiguousB c (segWalk clean c entries) = true
      ∧ segBytesConcat (segWalk clean c entries) = clean.drop c := by
  intro entries
  induction entries with
  | nil =>
    intro c _
    unfold segWalk
    by_cases hc : c < clean.length
    · rw [if_pos hc]
      constructor
      · simp [segsContiguousB]
      · simp [segBytesConcat]
    · rw [if_neg hc]
      constructor
      · rfl
      · simp [segBytesConcat, List.drop_of_length_le (by omega : clean.length ≤ c)]
  | cons e rest ih =>
    intro c hchain
    simp only [entriesChainB, Bool.and_eq_true, decide_eq_true_eq] at hchain
    obtain ⟨⟨hco, hol⟩, hrest⟩ := hchain
    have hih := ih (e.byte_offset + e.length) hrest
    have hmap : (jsSlice clean e.byte_offset (e.byte_offset + e.length)).length = e.length := by
      rw [jsSlice_length_of_le clean _ _ (by omega) (by omega)]
      omega
    unfold segWalk
    by_cases hc : c < e.byte_offset
    · rw [if_pos hc]
      have hgap : (jsSlice clean c e.byte_offset).length = e.byte_offset - c :=
        jsSlice_length_of_le clean c e.byte_offset (by omega) (by omega)
      constructor
      · rw [List.singleton_append, segsContiguousB_cons]
        refine ⟨rfl, ?_⟩
        show segsContiguousB (c + (jsSlice clean c e.byte_offset).length) _ = true
        rw [hgap, show c + (e.byte_offset - c) = e.byte_offset from by omega,
          segsContiguousB_cons]
        refine ⟨rfl, ?_⟩
        show segsContiguousB
          (e.byte_offset + (jsSlice clean e.byte_offset (e.byte_offset + e.length)).length)
          _ = true
        rw [hmap]
        exact hih.1
      · rw [List.singleton_append, segBytesConcat_cons, segBytesConcat_cons, hih.2]
        show jsSlice clean c e.byte_offset ++
          (jsSlice clean e.byte_offset (e.byte_offset + e.length) ++
            clean.drop (e.byte_offset + e.length)) = clean.drop c
        rw [← drop_eq_slice_append clean e.byte_offset (e.byte_offset + e.length) (by omega),
          ← drop_eq_slice_append clean c e.byte_offset (by omega)]
    · rw [if_neg hc]
      have hceq : c = e.byte_offset := by omega
      subst hceq
      rw [List.nil_append]
      constructor
      · rw [segsContiguousB_cons]
        refine ⟨rfl, ?_⟩
        show segsContiguousB
          (e.byte_offset +
            (jsSlice clean e.byte_offset (e.byte_offset + e.length)).length) _ = true
        rw [hmap]
        exact hih.1
      · rw [segBytesConcat_cons, hih.2]
        show jsSlice clean e.byte_offset (e.byte_offset + e.length) ++
          clean.drop (e.byte_offset + e.length) = clean.drop e.byte_offset
        exact (drop_eq_slice_append clean e.byte_offset (e.byte_offset + e.length)
          (by omega)).symm

/-- Claim C1 counterexample: for an arbitrary entry set the invariant fails.
With bytecode `aabbcc` and the overlapping entries `[0, +4)` and `[2, +2)`,
the concatenated segment bytes are `aabbbbcc`, not the bytecode; with
bytecode `aabb` and the out-of-bounds entry `[6, +2)`, the output is not
contiguous (a segment at offset 6 follows one ending at 4). -/
theorem C1_cex :
    segBytesConcat (segments ("aabbcc".toList)
        (some [{ byte_offset := 0, length := 4, source_start := 0, source_end := 1 },
               { byte_offset := 2, length := 2, source_start := 2, source_end := 3 }]))
      ≠ ("aabbcc".toList)
    ∧ segsContiguousB 0 (segments ("aabb".toList)
        (some [{ byte_offset := 6, length := 2, source_start := 0, source_end := 1 }])) =
      false := by
  decide

/-- Claim C1 as amended: for every bytecode string and every entry set whose
offset-sorted sequence is pairwise non-overlapping and in-bounds for the
prefix-stripped bytecode (the chain condition), the output segment sequence
is contiguous from offset 0 — hence sorted ascending by offset and
non-overlapping, each segment starting where the previous ended — and the
concatenation of all segments' bytes is exactly the prefix-stripped
bytecode. -/
theorem C1_segmenter (B : List Char) (m : List InternalSourceMapEntry)
    (h : entriesChainB (cleanBytecode B).length 0 (sortByOffset m) = true) :
    segsContiguousB 0 (segments B (some m)) = true
    ∧ segBytesConcat (segments B (some m)) = cleanBytecode B := by
  unfold segments
  simp only [segmentsOf]
  by_cases hm : m.length = 0
  · rw [if_pos hm]
    constructor
    · simp [segsContiguousB]
    · simp [segBytesConcat]
  · rw [if_neg hm]
    have hw := segWalk_spec (cleanBytecode B) (sortByOffset m) 0 h
    exact ⟨hw.1, by rw [hw.2, List.drop_zero]⟩

/-- Witness for C1 at a well-formed one-entry map over `aabb`. -/
theorem C1_segmenter_witness :
    entriesChainB (cleanBytecode ("aabb".toList)).length 0
        (sortByOffset [{ byte_offset := 0, length := 2, source_start := 0, source_end := 1 }]) =
      true
    ∧ segsContiguousB 0 (segments ("aabb".toList)
        (some [{ byte_offset := 0, length := 2, source_start := 0, source_end := 1 }])) = true
    ∧ segBytesConcat (segments ("aabb".toList)
        (some [{ byte_offset := 0, length := 2, source_start := 0, source_end := 1 }])) =
      ("aabb".toList) := by
  refine ⟨by decide, ?_, ?_⟩
  · exact (C1_segmenter ("aabb".toList)
      [{ byte_offset := 0, length := 2, source_start := 0, source_end := 1 }] (by decide)).1
  · exact (C1_segmenter ("aabb".toList)
      [{ byte_offset := 0, length := 2, source_start := 0, source_end := 1 }] (by decide)).2

/-- Helper: the mapped segments the walk emits are exactly one full-span
segment per entry, in sorted order, whatever the cursor — no clamping to the
cursor ever happens; gap and trailing segments are unmapped. -/
theorem segWalk_filter_mapped (clean : List Char) :
    ∀ (entries : List InternalSourceMapEntry) (c : Nat),
      (segWalk clean c entries).filter (fun s => s.sourceStart.isSome) =
        entries.map (mappedSegment clean) := by
  intro entries
  induction entries with
  | nil =>
    intro c
    unfold segWalk
    by_cases hc : c < clean.length
    · rw [if_pos hc]
      rfl
    · rw [if_neg hc]
      rfl
  | cons e rest ih =>
    intro c
    unfold segWalk
    by_cases hc : c < e.byte_offset
    · rw [if_pos hc, List.singleton_append]
      simp [mappedSegment, ih]
    · rw [if_neg hc]
      simp [mappedSegment, ih]

/-- Claim C3 counterexample: bytecode `00112233` with entries `[0, +6)` and
`[4, +4)`.  The second entry overlaps the span already covered (cursor 6), so
under the claim its start would be clamped to 6 and only the remainder
`[6, 8)` (bytes `33`) emitted.  The code instead emits the full span at
offset 4 with bytes `2233`, re-covering the prefix — the output is not
contiguous, which a clamped output would be. -/
theorem C3_cex :
    segments ("00112233".toList)
        (some [{ byte_offset := 0, length := 6, source_start := 10, source_end := 16 },
               { byte_offset := 4, length := 4, source_start := 20, source_end := 24 }]) =
      [{ offset := 0, bytes := "001122".toList, sourceStart := some 10, sourceEnd := some 16 },
       { offset := 4, bytes := "2233".toList, sourceStart := some 20, sourceEnd := some 24 }]
    ∧ segsContiguousB 0 (segments ("00112233".toList)
        (some [{ byte_offset := 0, length := 6, source_start := 10, source_end := 16 },
               { byte_offset := 4, length := 4, source_start := 20, source_end := 24 }])) =
      false := by
  decide

/-- Claim C3 as amended: the Segmenter never clamps.  For every bytecode and
every map — overlapping entries included — each sorted entry is emitted as a
mapped segment covering its full span `[charOffset, charOffset+charLength)`
at the entry's own offset (the already-covered prefix is re-emitted, not
dropped), and the walk then continues from that entry's end.  The Segmenter
is a total function: it does not crash and surfaces no failure. -/
theorem C3_no_clamp (B : List Char) (m : List InternalSourceMapEntry) :
    (segments B (some m)).filter (fun s => s.sourceStart.isSome) =
      (sortByOffset m).map (mappedSegment (cleanBytecode B)) := by
  unfold segments
  simp only [segmentsOf]
  by_cases hm : m.length = 0
  · rw [if_pos hm]
    cases m with
    | nil => rfl
    | cons f l => simp at hm
  · rw [if_neg hm]
    exact segWalk_filter_mapped (cleanBytecode B) (sortByOffset m) 0

example : parseOpcodes ("602a01".toList) =
    [OpcodeSpan.push ("60".toList), OpcodeSpan.pushData ("2a".toList),
     OpcodeSpan.op ("01".toList)] := by decide

example : parseOpcodes ("6001600201".toList) =
    [OpcodeSpan.push ("60".toList), OpcodeSpan.pushData ("01".toList),
     OpcodeSpan.push ("60".toList), OpcodeSpan.pushData ("02".toList),
     OpcodeSpan.op ("01".toList)] := by decide

example : parseOpcodes ("60".toList) = [OpcodeSpan.push ("60".toList)] := by decide

example : segments ("6001600201".toList) (some []) =
    [{ offset := 0, bytes := "6001600201".toList }] := by decide

example : segments ("0xaabbcc".toList)
      (some [{ byte_offset := 2, length := 2, source_start := 0, source_end := 1 }]) =
    [{ offset := 0, bytes := "aa".toList },
     { offset := 2, bytes := "bb".toList, sourceStart := some 0, sourceEnd := some 1 },
     { offset := 4, bytes := "cc".toList }] := by decide
